import Mathlib

/-!
Verification of the code2clipboard file-selection and formatting pipeline.

The JavaScript sources are shallowly embedded as executable Lean functions.
String primitives of the JavaScript runtime (String.prototype.startsWith,
endsWith, includes, slice, split, trim, toLowerCase) are modelled at the
character-list level so that every definition is kernel-computable; for the
ASCII data handled by the tool these agree with the UTF-16 semantics of the
originals.
-/
/-! ## JavaScript string primitives (character-level models) -/
/-- Model of JavaScript `s.startsWith(pre)`. -/
def jsStartsWith (s pre : String) : Bool := pre.data.isPrefixOf s.data

/-- Model of JavaScript `s.endsWith(suf)`. -/
def jsEndsWith (s suf : String) : Bool := suf.data.isSuffixOf s.data

/-- Model of JavaScript `s.includes(c)` for a single character. -/
def jsIncludesChar (s : String) (c : Char) : Bool := s.data.contains c

/-- Model of JavaScript `s.slice(n)` (drop the first `n` characters). -/
def jsSlice (s : String) (n : Nat) : String := ⟨s.data.drop n⟩

/-- Model of JavaScript `s.toLowerCase()`. -/
def jsToLower (s : String) : String := ⟨s.data.map Char.toLower⟩

/-- The character class of the JavaScript regular-expression escape `\s`,
which is also the set trimmed by `String.prototype.trim`. -/
def jsWhitespace (c : Char) : Bool :=
  let n := c.toNat
  n == 9 || n == 10 || n == 11 || n == 12 || n == 13 || n == 32 ||
  n == 0xa0 || n == 0x1680 || (0x2000 ≤ n && n ≤ 0x200a) ||
  n == 0x2028 || n == 0x2029 || n == 0x202f || n == 0x205f || n == 0x3000 || n == 0xfeff

/-- Model of JavaScript `s.trim()`. -/
def jsTrim (s : String) : String :=
  ⟨((s.data.dropWhile jsWhitespace).reverse.dropWhile jsWhitespace).reverse⟩

/-- Boolean substring test on character lists (used to state that a rendered
block does, or does not, mention a given path). -/
def listSub (p l : List Char) : Bool :=
  match l with
  | [] => p.isEmpty
  | _ :: t => p.isPrefixOf l || listSub p t

/-- Model of JavaScript `path.split('/')`: split a character list at every
`'/'`, keeping empty segments. -/
def splitSlashChars : List Char → List (List Char)
  | [] => [[]]
  | c :: cs =>
    let r := splitSlashChars cs
    if c = '/' then [] :: r
    else match r with
      | s :: rest => (c :: s) :: rest
      | [] => [[c]]

/-- The segment list of a relative path, as produced by `path.split('/')` in
`buildAndPrintTree`. -/
def segsOf (p : String) : List String := (splitSlashChars p.data).map (fun l => String.mk l)

/-- Model of Node's `path.extname(name).slice(1)`: the substring after the
last `.` of the basename, empty when there is no `.` or when the only
relevant `.` is the leading character (so `.env` has extension `""`). -/
def extnameSlice1 (name : String) : String :=
  let cs := name.data
  let revTail := cs.reverse.takeWhile (fun c => c != '.')
  if revTail.length = cs.length then ""
  else if revTail.length = cs.length - 1 then ""
  else ⟨revTail.reverse⟩

/-! ## Ignore-pattern construction (src/config.mjs and the later
src/src/config.mjs variant) -/
/-- From `filterIncludedExtensions` in src/src/config.mjs: drop every raw
pattern of the shape `*.<ext>` whose `<ext>` is explicitly allow-listed. -/
def filterIncludedExtensions (patterns includedExtensions : List String) : List String :=
  patterns.filter (fun pattern =>
    if !(jsStartsWith pattern "*.") then true
    else !(includedExtensions.contains (jsSlice pattern 2)))

/-- From `addIgnoreExtensions` in src/src/config.mjs (the older
`expandIgnorePatterns` in src/config.mjs inlines the same `**/*.<ext>`
synthesis with an identical one-leading-dot strip): append a synthesized
`**/*.<ext>` pattern for every extension-ignore entry. -/
def addIgnoreExtensions (patterns extensionsToIgnore : List String) : List String :=
  patterns ++ extensionsToIgnore.map (fun ext =>
    "**/*." ++ (if jsStartsWith ext "." then jsSlice ext 1 else ext))

/-- From `expandDirectoryPatterns` in src/src/config.mjs; the flatMap body of
the older `expandIgnorePatterns` in src/config.mjs is identical. -/
def expandDirectoryPatterns (patterns : List String) : List String :=
  patterns.flatMap (fun pattern =>
    if jsEndsWith pattern "/" || (!(jsIncludesChar pattern '.') && !(jsStartsWith pattern "*")) then
      ["**/" ++ pattern ++ "/**", "**/" ++ pattern]
    else ["**/" ++ pattern])

/-- From `expandIgnorePatterns` in src/src/config.mjs: filter allow-listed
`*.<ext>` patterns, then synthesize extension-ignore patterns, then expand.
The user extension set is modelled as a list; `userExtensions.length > 0`
models `userExtensions.size > 0`. -/
def expandIgnorePatterns (patterns ignoreExtensions userExtensions : List String) : List String :=
  let filteredPatterns :=
    if userExtensions.length > 0 then filterIncludedExtensions patterns userExtensions
    else patterns
  let filteredPatterns2 :=
    if ignoreExtensions.length > 0 then addIgnoreExtensions filteredPatterns ignoreExtensions
    else filteredPatterns
  expandDirectoryPatterns filteredPatterns2

/-- From `expandIgnorePatterns` in the older src/config.mjs, which has no
allow-list filtering step. -/
def expandIgnorePatternsOld (patterns ignoreExtensions : List String) : List String :=
  let patterns2 :=
    if ignoreExtensions.length > 0 then addIgnoreExtensions patterns ignoreExtensions
    else patterns
  expandDirectoryPatterns patterns2

/-! ## Syntax-label lookup and code-block formatting
(fileExtensionUtils.mjs and part_000's makeCodeBlock / formatFileContent) -/
/-- The extension-to-language table of fileExtensionUtils.mjs. -/
def markdownCodeBlockTypeMap : List (String × String) :=
  [("html", "html"), ("htm", "html"), ("xml", "xml"), ("css", "css"),
   ("scss", "scss"), ("sass", "sass"), ("less", "less"), ("js", "javascript"),
   ("jsx", "jsx"), ("ts", "typescript"), ("tsx", "tsx"), ("json", "json"),
   ("md", "markdown"), ("markdown", "markdown"), ("php", "php"),
   ("py", "python"), ("rb", "ruby"), ("java", "java"), ("c", "c"),
   ("cpp", "cpp"), ("cs", "csharp"), ("go", "go"), ("rs", "rust"),
   ("swift", "swift"), ("kt", "kotlin"), ("scala", "scala"), ("sh", "bash"),
   ("bash", "bash"), ("zsh", "bash"), ("fish", "fish"), ("bat", "batch"),
   ("ps1", "powershell"), ("yml", "yaml"), ("yaml", "yaml"), ("toml", "toml"),
   ("ini", "ini"), ("env", "dotenv"), ("dockerfile", "dockerfile"),
   ("sql", "sql"), ("graphql", "graphql"), ("gql", "graphql"),
   ("diff", "diff"), ("patch", "diff"), ("txt", "plaintext")]

/-- From `getMarkdownCodeBlockType`: table lookup with fallback `plaintext`. -/
def getMarkdownCodeBlockType (extension : String) : String :=
  ((markdownCodeBlockTypeMap.lookup (jsToLower extension)).getD "plaintext")

/-- From `makeCodeBlock` in part_000 (the complete variant): markdown content
is wrapped in fixed HTML comment markers, everything else in a ten-backtick
fence tagged with the language. -/
def makeCodeBlock (content : String) (language : String) : String :=
  if language == "markdown" then
    "\n<!-- Start of Markdown file content -->\n" ++ jsTrim content ++
      "\n<!-- End of Markdown file content -->\n"
  else
    "``````````" ++ language ++ "\n" ++ jsTrim content ++ "\n" ++ "``````````"

/-- The body part of `formatFileContent` in part_000: the code block built
from the file content and the syntax label resolved from the lower-cased
extension of the file name. -/
def fileBodyBlock (name : String) (content : String) : String :=
  makeCodeBlock content (getMarkdownCodeBlockType (jsToLower (extnameSlice1 name)))

/-! ## File classifier (part_000's isAllowedFile) -/
/-- Configuration record consumed by the walker; the ignore predicate
abstracts `micromatch.isMatch(relativePath, EXPANDED_IGNORE)` applied to the
segment list of the path relative to the scan root. -/
structure ScanConfig where
  maxDepth : Nat
  maxFileSize : Nat
  extensions : List String
  ignore : List String → Bool

/-- The decision part of `isAllowedFile` in part_000: binary files are
rejected, then the size ceiling and the (possibly empty) extension allow-list
are checked. -/
def isAllowedPure (cfg : ScanConfig) (name : String) (size : Nat) (binary : Bool) : Bool :=
  if binary then false
  else decide (size ≤ cfg.maxFileSize) &&
    (cfg.extensions.contains (extnameSlice1 name) || cfg.extensions.isEmpty)

/-- JavaScript `Map.get(k)` with the `|| 0` default used for the
per-extension counters. -/
def countGet (m : List (String × Nat)) (k : String) : Nat :=
  match m with
  | [] => 0
  | (k1, v) :: rest => if k1 = k then v else countGet rest k

/-- JavaScript `Map.set(k, v)`: update in place, or append a new entry. -/
def countSet (m : List (String × Nat)) (k : String) (v : Nat) : List (String × Nat) :=
  match m with
  | [] => [(k, v)]
  | (k1, v1) :: rest => if k1 = k then (k, v) :: rest else (k1, v1) :: countSet rest k v

/-- Model of `isAllowedFile` in part_000 together with its side effect on the global
`fileExtensionCounts` map: on acceptance the counter of the file's extension
is bumped. -/
def isAllowedFileCounted (cfg : ScanConfig) (name : String) (size : Nat) (binary : Bool)
    (counts : List (String × Nat)) : Bool × List (String × Nat) :=
  let extension := extnameSlice1 name
  if binary then (false, counts)
  else
    let allowed := decide (size ≤ cfg.maxFileSize) &&
      (cfg.extensions.contains extension || cfg.extensions.isEmpty)
    if allowed then (true, countSet counts extension (countGet counts extension + 1))
    else (false, counts)

/-! ## Final output phase of part_000's main -/
/-- The observable effects of the tail of `main` in part_000. -/
structure OutputEffects where
  clipboardWrite : Option String
  copiedTreeLog : Option String
  statsReported : Bool
deriving DecidableEq

/-- Lines 384-388 of part_000: the clipboard write and the copied-files tree
log are guarded by `formattedContents.length > 0`; `outputStats` runs
unconditionally. -/
def finalOutputPhase (formattedContents : List String) (clipboardContent : String)
    (tree : String) : OutputEffects :=
  if formattedContents.length > 0 then
    { clipboardWrite := some clipboardContent, copiedTreeLog := some tree, statsReported := true }
  else
    { clipboardWrite := none, copiedTreeLog := none, statsReported := true }

/-! ## Directory walker (part_000's scanDirectory and the pruning step of
main) -/
/-- A filesystem snapshot: files carry the data the classifier consumes
(readability of stat/read, byte size, the binary-detection verdict of the
external istextorbinary heuristic), directories carry readability of
`fs.readdir` and their ordered entry list. -/
inductive FSNode where
  | file (readable : Bool) (size : Nat) (binary : Bool)
  | dir (readable : Bool) (entries : List (String × FSNode))

/-- The walker's output: selected file paths (as segment lists relative to
the scan root) and the skip records accumulated in traversal order. -/
structure ScanResult where
  files : List (List String)
  skipped : List (List String × String)
deriving DecidableEq

mutual

/-- part_000's `scanDirectory`: the depth guard runs before `fs.readdir`, an
unreadable directory makes `readdir` throw (modelled as `Except.error`), and
each entry is dispatched exactly as in the loop body. -/
def scanDirectory (cfg : ScanConfig) (path : List String) (depth : Nat)
    (node : FSNode) : Except Unit ScanResult :=
  if depth > cfg.maxDepth then .ok ⟨[], []⟩
  else match node with
    | .file _ _ _ => .error ()
    | .dir readable entries =>
      if readable then scanEntries cfg path depth entries else .error ()

/-- The entry loop of part_000's `scanDirectory`: an ignored entry produces a
skip record and is not descended into; a directory entry is recursed into at
`depth + 1`; a file entry runs the classifier (whose stat/read throws when
the file is unreadable, aborting the loop) and is either selected or recorded
as not allowed.  Exception propagation of the JavaScript `for` loop is
modelled with `Except.bind`/`Except.map` sequencing. -/
def scanEntries (cfg : ScanConfig) (path : List String) (depth : Nat) :
    List (String × FSNode) → Except Unit ScanResult
  | [] => .ok ⟨[], []⟩
  | (name, child) :: rest =>
    if cfg.ignore (path ++ [name]) then
      (scanEntries cfg path depth rest).map (fun r =>
        ⟨r.files,
          (path ++ [name],
            match child with
            | .dir _ _ => "Ignored Directory"
            | .file _ _ _ => "Ignored") :: r.skipped⟩)
    else match child with
      | .dir _ _ =>
        (scanDirectory cfg (path ++ [name]) (depth + 1) child).bind (fun sub =>
          (scanEntries cfg path depth rest).map (fun r =>
            ⟨sub.files ++ r.files, sub.skipped ++ r.skipped⟩))
      | .file readable size binary =>
        if readable then
          (scanEntries cfg path depth rest).map (fun r =>
            if isAllowedPure cfg name size binary then
              ⟨(path ++ [name]) :: r.files, r.skipped⟩
            else
              ⟨r.files, (path ++ [name], "Not allowed (size or binary)") :: r.skipped⟩)
        else .error ()

end

/-- Lines 333-341 of part_000's `main`: run the full walk, then keep the
first `maxFiles` selected files and record every file beyond that as an
exceeded-max-files skip. -/
def mainScan (cfg : ScanConfig) (maxFiles : Nat) (root : FSNode) :
    Except Unit (List (List String) × List (List String × String)) :=
  match scanDirectory cfg [] 0 root with
  | .error e => .error e
  | .ok r =>
    let files := r.files.take maxFiles
    let skipped :=
      if r.files.length > maxFiles then
        r.skipped ++ (r.files.drop maxFiles).map (fun f => (f, "Exceeded max files limit"))
      else r.skipped
    .ok (files, skipped)

/-! ## Newline collapsing (part_000's removeExcessLineBreaks)

The source is `content.replace(/\n\s*\n\s*\n/g, '\n\n')`.  For this pattern
the backtracking semantics of the JavaScript engine reduce to a simple
closed form.  A match can start at position `i` iff the character there is
`'\n'` and the maximal whitespace run beginning at `i` contains at least
three newlines (the first pattern `\n` must sit at `i`, and the two
remaining `\n`s are reached through `\s*`, which can only cross whitespace).
Greedy matching places the second newline as late as possible while a third
still follows, and then the third as late as possible, so the match extends
exactly to the last newline of that whitespace run.  The global replace
scans left to right, copies unmatched characters, substitutes `"\n\n"` for
each match, and resumes after the match. -/
/-- The matched portion of a whitespace run: everything up to and including
its last newline. -/
def trimAfterLastNl (l : List Char) : List Char :=
  (l.reverse.dropWhile (fun c => c != '\n')).reverse

/-- One step of the global replace of `/\n\s*\n\s*\n/g` by `"\n\n"`. -/
def collapseAux : List Char → List Char
  | [] => []
  | c :: cs =>
    if h : c = '\n' ∧ 3 ≤ ((c :: cs).takeWhile jsWhitespace).count '\n' then
      '\n' :: '\n' ::
        collapseAux ((c :: cs).drop (trimAfterLastNl ((c :: cs).takeWhile jsWhitespace)).length)
    else
      c :: collapseAux cs
termination_by l => l.length
decreasing_by
  · rename_i c
    have hpos : 0 < (trimAfterLastNl ((c :: t).takeWhile jsWhitespace)).length := by
      have hmem : '\n' ∈ (c :: t).takeWhile jsWhitespace := List.count_pos_iff.mp (by omega)
      have hmem2 : '\n' ∈ ((c :: t).takeWhile jsWhitespace).reverse := List.mem_reverse.mpr hmem
      have hne2 : ((c :: t).takeWhile jsWhitespace).reverse.dropWhile (fun x => x != '\n')
          ≠ [] := by
        intro hnil
        have hall := List.dropWhile_eq_nil_iff.mp hnil '\n' hmem2
        simp at hall
      simp only [trimAfterLastNl, List.length_reverse]
      exact List.length_pos.mpr hne2
    simp only [List.length_drop, List.length_cons]
    omega
  · simp

/-- part_000's `removeExcessLineBreaks`. -/
def removeExcessLineBreaks (content : String) : String :=
  ⟨collapseAux content.data⟩

/-- Holds iff the character list contains no three consecutive newlines. -/
def noTripleNl : List Char → Bool
  | [] => true
  | [_] => true
  | [_, _] => true
  | a :: b :: c :: rest =>
    if a = '\n' ∧ b = '\n' ∧ c = '\n' then false
    else noTripleNl (b :: c :: rest)

/-- The length of the leading newline run. -/
def leadNl (l : List Char) : Nat := (l.takeWhile (fun c => c == '\n')).length

/-! ## Tree building and rendering (part_000's buildAndPrintTree)

`buildAndPrintTree` inserts each relative path's `split('/')` segments into a
plain JavaScript object (`null` marks a leaf, a nested object a directory)
and renders it with box-drawing connectors.  The object is modelled as an
insertion-ordered association list; plain JavaScript objects enumerate
integer-like keys first, a reordering that no property below depends on. -/
/-- A JavaScript value stored in the tree object: `null` or a nested
object. -/
inductive JsVal where
  | nullv
  | obj (entries : List (String × JsVal))

/-- JavaScript property read `current[segment]`. -/
def getEntry : List (String × JsVal) → String → Option JsVal
  | [], _ => none
  | (k1, v1) :: es, k => if k1 = k then some v1 else getEntry es k

/-- JavaScript property write `current[segment] = v`: update in place or
append. -/
def setEntry : List (String × JsVal) → String → JsVal → List (String × JsVal)
  | [], k, v => [(k, v)]
  | (k1, v1) :: es, k, v =>
    if k1 = k then (k, v) :: es else (k1, v1) :: setEntry es k v

/-- The `segments.forEach` insertion loop of `buildAndPrintTree`: a falsy
slot (`undefined` or `null`) is overwritten — with `null` at the last
segment, with a fresh object otherwise — and a truthy object is descended
into. -/
def insertSegs : List String → List (String × JsVal) → List (String × JsVal)
  | [], es => es
  | [s], es =>
    match getEntry es s with
    | some (.obj _) => es
    | _ => setEntry es s .nullv
  | s :: s2 :: rest, es =>
    setEntry es s (.obj (insertSegs (s2 :: rest)
      (match getEntry es s with
       | some (.obj cs) => cs
       | _ => [])))

/-- The tree built by `paths.forEach` in `buildAndPrintTree`. -/
def buildTreeEntries (paths : List String) : List (String × JsVal) :=
  paths.foldl (fun tree p => insertSegs (segsOf p) tree) []

/-- The children rendered for a value: `if (value)` recursion descends into
objects and skips `null`. -/
def childrenOf : JsVal → List (String × JsVal)
  | .nullv => []
  | .obj cs => cs

/-- The `buildTreeString` renderer of `buildAndPrintTree`: the last sibling
gets `└── ` and continuation `    `, every other sibling `├── ` and
continuation `│   `. -/
def renderList (pre : String) : List (String × JsVal) → String
  | [] => ""
  | [(k, v)] => pre ++ "└── " ++ k ++ "\n" ++ renderList (pre ++ "    ") (childrenOf v)
  | (k, v) :: e :: es =>
    pre ++ "├── " ++ k ++ "\n" ++ renderList (pre ++ "│   ") (childrenOf v) ++
      renderList pre (e :: es)
termination_by l => sizeOf l
decreasing_by
  · cases v <;> simp [childrenOf] <;> omega
  · cases v <;> simp [childrenOf] <;> omega
  · simp

/-- part_000's `buildAndPrintTree`. -/
def buildAndPrintTree (paths : List String) : String :=
  renderList "" (buildTreeEntries paths)

/-- The rendered lines, one per tree node, in render order. -/
def linesListL (pre : String) : List (String × JsVal) → List String
  | [] => []
  | [(k, v)] => (pre ++ "└── " ++ k) :: linesListL (pre ++ "    ") (childrenOf v)
  | (k, v) :: e :: es =>
    (pre ++ "├── " ++ k) ::
      (linesListL (pre ++ "│   ") (childrenOf v) ++ linesListL pre (e :: es))
termination_by l => sizeOf l
decreasing_by
  · cases v <;> simp [childrenOf] <;> omega
  · cases v <;> simp [childrenOf] <;> omega
  · simp

/-- Number of nodes of the tree (distinct occupied positions). -/
def nodeCount : List (String × JsVal) → Nat
  | [] => 0
  | (_, v) :: es => 1 + nodeCount (childrenOf v) + nodeCount es
termination_by l => sizeOf l
decreasing_by
  · cases v <;> simp [childrenOf] <;> omega
  · simp

/-- Newline-terminated concatenation of a list of lines. -/
def joinLines (ls : List String) : String :=
  ls.foldr (fun l acc => l ++ "\n" ++ acc) ""

/-- Modelled from the spec: the connector discipline the claim describes —
within each sibling group `└── ` appears exactly once, on the last sibling,
all other siblings use `├── `, and the continuation prefix is four spaces
under a `└── ` line and `│   ` under a `├── ` line. -/
inductive ConnectorSpec : String → List (String × JsVal) → List String → Prop where
  | nil : ∀ pre, ConnectorSpec pre [] []
  | single : ∀ pre k v sub, ConnectorSpec (pre ++ "    ") (childrenOf v) sub →
      ConnectorSpec pre [(k, v)] ((pre ++ "└── " ++ k) :: sub)
  | grouped : ∀ pre k v e es sub ls, ConnectorSpec (pre ++ "│   ") (childrenOf v) sub →
      ConnectorSpec pre (e :: es) ls →
      ConnectorSpec pre ((k, v) :: e :: es) ((pre ++ "├── " ++ k) :: (sub ++ ls))

/-- The path's segment chain ends at a leaf (`null`) of the tree. -/
def isLeafChain : List (String × JsVal) → List String → Bool
  | _, [] => false
  | es, [s] =>
    match getEntry es s with
    | some .nullv => true
    | _ => false
  | es, s :: s2 :: rest =>
    match getEntry es s with
    | some (.obj cs) => isLeafChain cs (s2 :: rest)
    | _ => false

/-- The path's segment chain leads to an object (directory) node. -/
def hasObjAt : List (String × JsVal) → List String → Bool
  | _, [] => true
  | es, s :: rest =>
    match getEntry es s with
    | some (.obj cs) => hasObjAt cs rest
    | _ => false

/-- Tests whether `a` is a proper segment-wise prefix of `b`. -/
def properSegPre (a b : List String) : Bool := a.isPrefixOf b && a != b

/-! ## Theorems -/

/-! ## Supporting lemmas -/
theorem countGet_countSet (m : List (String × Nat)) (k : String) (v : Nat) :
    countGet (countSet m k v) k = v := by
  induction m with
  | nil => simp [countGet, countSet]
  | cons hd t ih =>
    obtain ⟨k1, v1⟩ := hd
    by_cases hk : k1 = k
    · simp [countGet, countSet, hk]
    · simp [countGet, countSet, hk, ih]

/-! ## Claim C1 -/
/-- C1: with allow-list `{"md"}` and extension-ignore `["md"]`, the raw
`*.md` pattern is filtered but the synthesized `**/*.md` pattern is added
back after the filtering step, so the final expanded ignore list still
contains an any-depth `*.md` rule (`**/**/*.md`) and `.md` files are not
selected; the claim that every bare extension-wildcard pattern for an
allow-listed extension is removed before matching is false on the code. -/
theorem c1_synthesized_extension_pattern_survives :
    addIgnoreExtensions (filterIncludedExtensions ["*.md"] ["md"]) ["md"] = ["**/*.md"] ∧
    expandIgnorePatterns ["*.md"] ["md"] ["md"] = ["**/**/*.md"] := by
  constructor
  · decide
  · decide

/-! ## Claim C5 -/
theorem extensions_check_iff (cfg : ScanConfig) (e : String) :
    (cfg.extensions.contains e || cfg.extensions.isEmpty) = true ↔
      (e ∈ cfg.extensions ∨ cfg.extensions = []) := by
  constructor
  · intro h
    rcases Bool.or_eq_true_iff.mp h with h | h
    · exact Or.inl (List.mem_of_elem_eq_true h)
    · exact Or.inr (List.isEmpty_iff.mp h)
  · intro h
    rcases h with h | h
    · exact Bool.or_eq_true_iff.mpr (Or.inl (List.elem_eq_true_of_mem h))
    · exact Bool.or_eq_true_iff.mpr (Or.inr (List.isEmpty_iff.mpr h))

theorem isAllowedFileCounted_eq (cfg : ScanConfig) (name : String) (size : Nat)
    (binary : Bool) (counts : List (String × Nat)) :
    isAllowedFileCounted cfg name size binary counts =
      if binary = false ∧ size ≤ cfg.maxFileSize ∧
          (extnameSlice1 name ∈ cfg.extensions ∨ cfg.extensions = []) then
        (true, countSet counts (extnameSlice1 name) (countGet counts (extnameSlice1 name) + 1))
      else (false, counts) := by
  cases binary with
  | true => simp [isAllowedFileCounted]
  | false =>
    simp only [isAllowedFileCounted, Bool.false_eq_true, if_false]
    by_cases hsz : size ≤ cfg.maxFileSize
    · by_cases hmem : extnameSlice1 name ∈ cfg.extensions ∨ cfg.extensions = []
      · rw [if_pos (Bool.and_eq_true_iff.mpr
          ⟨decide_eq_true hsz, (extensions_check_iff cfg (extnameSlice1 name)).mpr hmem⟩),
          if_pos ⟨by trivial, hsz, hmem⟩]
      · rw [if_neg, if_neg (by tauto)]
        intro hcc
        exact hmem ((extensions_check_iff cfg (extnameSlice1 name)).mp
          (Bool.and_eq_true_iff.mp hcc).2)
    · rw [if_neg, if_neg (by tauto)]
      intro hcc
      exact hsz (of_decide_eq_true (Bool.and_eq_true_iff.mp hcc).1)

/-- C5: the classifier accepts a file iff its size is at most the byte
ceiling, it is not classified binary, and the allow-list is empty or contains
its extension; a file of exactly the ceiling passes the size check, one byte
over is always rejected, and on acceptance the per-extension counter is
incremented by exactly one (and is untouched on rejection). -/
theorem c5_classifier_acceptance (cfg : ScanConfig) (name : String) (size : Nat)
    (binary : Bool) (counts : List (String × Nat)) :
    ((isAllowedFileCounted cfg name size binary counts).1 = true ↔
      size ≤ cfg.maxFileSize ∧ binary = false ∧
        (cfg.extensions = [] ∨ extnameSlice1 name ∈ cfg.extensions)) ∧
    (isAllowedFileCounted cfg name cfg.maxFileSize false counts).1 =
      (cfg.extensions.contains (extnameSlice1 name) || cfg.extensions.isEmpty) ∧
    (isAllowedFileCounted cfg name (cfg.maxFileSize + 1) binary counts).1 = false ∧
    ((isAllowedFileCounted cfg name size binary counts).1 = true →
      countGet (isAllowedFileCounted cfg name size binary counts).2 (extnameSlice1 name) =
        countGet counts (extnameSlice1 name) + 1) ∧
    ((isAllowedFileCounted cfg name size binary counts).1 = false →
      (isAllowedFileCounted cfg name size binary counts).2 = counts) := by
  refine ⟨?_, ?_, ?_, ?_, ?_⟩
  · rw [isAllowedFileCounted_eq]
    by_cases h : binary = false ∧ size ≤ cfg.maxFileSize ∧
        (extnameSlice1 name ∈ cfg.extensions ∨ cfg.extensions = [])
    · rw [if_pos h]
      simp only [true_iff]
      tauto
    · rw [if_neg h]
      simp only [Bool.false_eq_true, false_iff]
      tauto
  · rw [isAllowedFileCounted_eq]
    by_cases hmem : extnameSlice1 name ∈ cfg.extensions ∨ cfg.extensions = []
    · rw [if_pos ⟨by trivial, le_refl _, hmem⟩]
      exact ((extensions_check_iff cfg (extnameSlice1 name)).mpr hmem).symm
    · rw [if_neg (by tauto)]
      have hfalse : (cfg.extensions.contains (extnameSlice1 name) ||
          cfg.extensions.isEmpty) = false := by
        by_contra hcc
        simp only [Bool.not_eq_false] at hcc
        exact hmem ((extensions_check_iff cfg (extnameSlice1 name)).mp hcc)
      exact hfalse.symm
  · rw [isAllowedFileCounted_eq]
    have hlt : ¬ (cfg.maxFileSize + 1 ≤ cfg.maxFileSize) := by omega
    rw [if_neg (by tauto)]
  · intro hacc
    rw [isAllowedFileCounted_eq] at hacc ⊢
    by_cases h : binary = false ∧ size ≤ cfg.maxFileSize ∧
        (extnameSlice1 name ∈ cfg.extensions ∨ cfg.extensions = [])
    · rw [if_pos h]
      simp [countGet_countSet]
    · rw [if_neg h] at hacc
      simp at hacc
  · intro hrej
    rw [isAllowedFileCounted_eq] at hrej ⊢
    by_cases h : binary = false ∧ size ≤ cfg.maxFileSize ∧
        (extnameSlice1 name ∈ cfg.extensions ∨ cfg.extensions = [])
    · rw [if_pos h] at hrej
      simp at hrej
    · rw [if_neg h]

/-- Witness for C5 at a concrete input: a 100-byte non-binary `.md` file under
ceiling 100 with allow-list `["md"]` is accepted, and the `md` counter of the
empty counter map is bumped to one. -/
theorem c5_classifier_acceptance_witness :
    (isAllowedFileCounted ⟨5, 100, ["md"], fun _ => false⟩ "a.md" 100 false []).1 = true ∧
    countGet (isAllowedFileCounted ⟨5, 100, ["md"], fun _ => false⟩ "a.md" 100 false []).2
        (extnameSlice1 "a.md") =
      countGet [] (extnameSlice1 "a.md") + 1 := by
  refine ⟨by decide, ?_⟩
  exact (c5_classifier_acceptance ⟨5, 100, ["md"], fun _ => false⟩ "a.md" 100 false []).2.2.2.1
    (by decide)

/-! ## Claim C6 -/
/-- C6: a raw pattern that ends in `/`, or contains no `.` and does not start
with `*`, expands to exactly the two rules `**/<p>/**` and `**/<p>`; any
other pattern expands to the single rule `**/<p>`; expansion distributes over
the pattern list; and each extension-ignore entry contributes a synthesized
`**/*.<ext>` pattern (one leading dot stripped) to the pattern set before the
directory expansion runs, in both config variants. -/
theorem c6_pattern_expansion (p : String) (ps exts : List String) :
    ((jsEndsWith p "/" = true ∨ (jsIncludesChar p '.' = false ∧ jsStartsWith p "*" = false)) →
      expandDirectoryPatterns [p] = ["**/" ++ p ++ "/**", "**/" ++ p]) ∧
    ((jsEndsWith p "/" = false ∧ (jsIncludesChar p '.' = true ∨ jsStartsWith p "*" = true)) →
      expandDirectoryPatterns [p] = ["**/" ++ p]) ∧
    expandDirectoryPatterns (p :: ps) = expandDirectoryPatterns [p] ++ expandDirectoryPatterns ps ∧
    addIgnoreExtensions ps exts = ps ++ exts.map (fun e =>
      "**/*." ++ (if jsStartsWith e "." then jsSlice e 1 else e)) ∧
    expandIgnorePatternsOld ps exts = expandDirectoryPatterns (addIgnoreExtensions ps exts) ∧
    expandIgnorePatterns ps exts [] = expandDirectoryPatterns (addIgnoreExtensions ps exts) := by
  refine ⟨?_, ?_, ?_, rfl, ?_, ?_⟩
  · intro h
    rcases h with h | ⟨h1, h2⟩
    · simp [expandDirectoryPatterns, h]
    · simp [expandDirectoryPatterns, h1, h2]
  · rintro ⟨h0, h⟩
    rcases h with h | h
    · simp [expandDirectoryPatterns, h0, h]
    · simp [expandDirectoryPatterns, h0, h]
  · simp [expandDirectoryPatterns]
  · cases hex : exts with
    | nil => simp [expandIgnorePatternsOld, addIgnoreExtensions]
    | cons e es => simp [expandIgnorePatternsOld, addIgnoreExtensions]
  · cases hex : exts with
    | nil => simp [expandIgnorePatterns, addIgnoreExtensions]
    | cons e es => simp [expandIgnorePatterns, addIgnoreExtensions]

/-- Witness for C6 at concrete inputs: `node_modules` is treated as a
directory pattern, `*.log` as a file pattern, and extension-ignore `md`
synthesizes `**/*.md` ahead of expansion. -/
theorem c6_pattern_expansion_witness :
    (jsEndsWith "node_modules" "/" = true ∨
      (jsIncludesChar "node_modules" '.' = false ∧ jsStartsWith "node_modules" "*" = false)) ∧
    expandDirectoryPatterns ["node_modules"] = ["**/node_modules/**", "**/node_modules"] ∧
    (jsEndsWith "*.log" "/" = false ∧
      (jsIncludesChar "*.log" '.' = true ∨ jsStartsWith "*.log" "*" = true)) ∧
    expandDirectoryPatterns ["*.log"] = ["**/*.log"] ∧
    addIgnoreExtensions ["*.log"] ["md"] = ["*.log", "**/*.md"] := by
  refine ⟨by decide, ?_, by decide, ?_, ?_⟩
  · exact (c6_pattern_expansion "node_modules" [] []).1 (by decide)
  · exact (c6_pattern_expansion "*.log" [] []).2.1 (by decide)
  · have h := (c6_pattern_expansion "x" ["*.log"] ["md"]).2.2.2.1
    rw [h]; decide

/-! ## Claim C7 -/
/-- C7 counterexample: in part_000's formatter the wrapping is chosen by the
resolved syntax label, not by any configuration flag — under one and the same
(flag-free) formatter, a `.md` file gets fixed HTML comment markers that do
not mention the file's relative path, while a `.js` file gets a tagged
ten-backtick fence. -/
theorem c7_counterexample :
    fileBodyBlock "README.md" "x" =
      "\n<!-- Start of Markdown file content -->\nx\n<!-- End of Markdown file content -->\n" ∧
    listSub "README.md".data (fileBodyBlock "README.md" "x").data = false ∧
    fileBodyBlock "a.js" "x" = "``````````javascript\nx\n``````````" := by
  refine ⟨by decide, by decide, by decide⟩

/-- C7 (amended): the block body is the trimmed content wrapped either in the
fixed comment markers `Start/End of Markdown file content` (which do not name
the relative path) when the syntax label resolved from the extension is
`markdown`, or otherwise in a ten-backtick fence tagged with that label; the
label lookup falls back to `plaintext`, and the choice between the two
wrappings is determined by the resolved label alone. -/
theorem c7_body_determined_by_language (name content : String) :
    (getMarkdownCodeBlockType (jsToLower (extnameSlice1 name)) = "markdown" →
      fileBodyBlock name content =
        "\n<!-- Start of Markdown file content -->\n" ++ jsTrim content ++
          "\n<!-- End of Markdown file content -->\n") ∧
    (getMarkdownCodeBlockType (jsToLower (extnameSlice1 name)) ≠ "markdown" →
      fileBodyBlock name content =
        "``````````" ++ getMarkdownCodeBlockType (jsToLower (extnameSlice1 name)) ++ "\n" ++
          jsTrim content ++ "\n" ++ "``````````") ∧
    (∀ e : String, markdownCodeBlockTypeMap.lookup (jsToLower e) = none →
      getMarkdownCodeBlockType e = "plaintext") := by
  refine ⟨?_, ?_, ?_⟩
  · intro h
    simp [fileBodyBlock, makeCodeBlock, h]
  · intro h
    simp [fileBodyBlock, makeCodeBlock, h]
  · intro e he
    simp [getMarkdownCodeBlockType, he]

/-- Witness for C7's amended statement: both branches realized at concrete
files under the same formatter. -/
theorem c7_body_determined_by_language_witness :
    getMarkdownCodeBlockType (jsToLower (extnameSlice1 "README.md")) = "markdown" ∧
    fileBodyBlock "README.md" "hi" =
      "\n<!-- Start of Markdown file content -->\nhi\n<!-- End of Markdown file content -->\n" ∧
    getMarkdownCodeBlockType (jsToLower (extnameSlice1 "a.xyz")) ≠ "markdown" ∧
    fileBodyBlock "a.xyz" "hi" = "``````````plaintext\nhi\n``````````" := by
  refine ⟨by decide, ?_, by decide, ?_⟩
  · rw [(c7_body_determined_by_language "README.md" "hi").1 (by decide)]; decide
  · rw [(c7_body_determined_by_language "a.xyz" "hi").2.1 (by decide)]; decide

/-! ## Claim C10 -/
/-- C10: the clipboard write (and the copied-files tree log) happens only when
at least one formatted block exists — an empty selection produces no clipboard
write — while the console statistics run unconditionally. -/
theorem c10_no_clipboard_write_when_empty (formattedContents : List String)
    (clipboardContent tree : String) :
    (formattedContents = [] →
      finalOutputPhase formattedContents clipboardContent tree =
        { clipboardWrite := none, copiedTreeLog := none, statsReported := true }) ∧
    (formattedContents ≠ [] →
      (finalOutputPhase formattedContents clipboardContent tree).clipboardWrite =
        some clipboardContent) ∧
    (finalOutputPhase formattedContents clipboardContent tree).statsReported = true := by
  refine ⟨?_, ?_, ?_⟩
  · intro h
    simp [finalOutputPhase, h]
  · intro h
    cases formattedContents with
    | nil => exact absurd rfl h
    | cons a t => simp [finalOutputPhase]
  · cases formattedContents with
    | nil => simp [finalOutputPhase]
    | cons a t => simp [finalOutputPhase]

/-- Witness for C10: with no formatted blocks nothing is written to the
clipboard and the statistics still run; with one block the content is
written. -/
theorem c10_no_clipboard_write_when_empty_witness :
    finalOutputPhase [] "content" "tree" =
      { clipboardWrite := none, copiedTreeLog := none, statsReported := true } ∧
    (finalOutputPhase ["b"] "content" "tree").clipboardWrite = some "content" := by
  refine ⟨(c10_no_clipboard_write_when_empty [] "content" "tree").1 rfl, ?_⟩
  exact (c10_no_clipboard_write_when_empty ["b"] "content" "tree").2.1 (by simp)

theorem scanEntries_nil (cfg : ScanConfig) (path : List String) (depth : Nat) :
    scanEntries cfg path depth [] = .ok ⟨[], []⟩ := by
  rw [scanEntries.eq_def]

theorem scanEntries_cons (cfg : ScanConfig) (path : List String) (depth : Nat)
    (name : String) (child : FSNode) (rest : List (String × FSNode)) :
    scanEntries cfg path depth ((name, child) :: rest) =
      if cfg.ignore (path ++ [name]) then
        (scanEntries cfg path depth rest).map (fun r =>
          ⟨r.files,
            (path ++ [name],
              match child with
              | .dir _ _ => "Ignored Directory"
              | .file _ _ _ => "Ignored") :: r.skipped⟩)
      else match child with
        | .dir _ _ =>
          (scanDirectory cfg (path ++ [name]) (depth + 1) child).bind (fun sub =>
            (scanEntries cfg path depth rest).map (fun r =>
              ⟨sub.files ++ r.files, sub.skipped ++ r.skipped⟩))
        | .file readable size binary =>
          if readable then
            (scanEntries cfg path depth rest).map (fun r =>
              if isAllowedPure cfg name size binary then
                ⟨(path ++ [name]) :: r.files, r.skipped⟩
              else
                ⟨r.files, (path ++ [name], "Not allowed (size or binary)") :: r.skipped⟩)
          else .error () := by
  rw [scanEntries.eq_def]

theorem scanDirectory_unfold (cfg : ScanConfig) (path : List String) (depth : Nat)
    (node : FSNode) :
    scanDirectory cfg path depth node =
      if depth > cfg.maxDepth then .ok ⟨[], []⟩
      else match node with
        | .file _ _ _ => .error ()
        | .dir readable entries =>
          if readable then scanEntries cfg path depth entries else .error () := by
  rw [scanDirectory.eq_def]

theorem scan_bound_aux (cfg : ScanConfig) : ∀ n : Nat,
    (∀ (node : FSNode) (path : List String) (depth : Nat), sizeOf node ≤ n →
      ∀ r, scanDirectory cfg path depth node = .ok r →
        ∀ p ∈ r.files, p.length ≤ path.length + (cfg.maxDepth + 1 - depth)) ∧
    (∀ (l : List (String × FSNode)) (path : List String) (depth : Nat), sizeOf l ≤ n →
      depth ≤ cfg.maxDepth → ∀ r, scanEntries cfg path depth l = .ok r →
        ∀ p ∈ r.files, p.length ≤ path.length + (cfg.maxDepth + 1 - depth)) := by
  intro n
  induction n using Nat.strong_induction_on with
  | _ n ih =>
    constructor
    · intro node path depth hsz r h p hp
      rw [scanDirectory_unfold] at h
      by_cases hd : depth > cfg.maxDepth
      · rw [if_pos hd] at h
        cases h
        simp at hp
      · rw [if_neg hd] at h
        cases node with
        | file readable size binary => exact absurd h (by simp)
        | dir readable entries =>
          cases readable with
          | false => exact absurd h (by simp)
          | true =>
            replace h : scanEntries cfg path depth entries = Except.ok r := h
            have hlt : sizeOf entries < n := by
              have : sizeOf entries < sizeOf (FSNode.dir true entries) := by simp
              omega
            exact (ih (sizeOf entries) hlt).2 entries path depth le_rfl (by omega) r h p hp
    · intro l path depth hsz hdep r h p hp
      cases l with
      | nil =>
        rw [scanEntries_nil] at h
        cases h
        simp at hp
      | cons e rest =>
        obtain ⟨name, child⟩ := e
        have hrest : sizeOf rest < n := by
          have : sizeOf rest < sizeOf ((name, child) :: rest) := by simp
          omega
        have hchild : sizeOf child < n := by
          have : sizeOf child < sizeOf ((name, child) :: rest) := by
            simp
            omega
          omega
        rw [scanEntries_cons] at h
        by_cases hig : cfg.ignore (path ++ [name]) = true
        · rw [if_pos hig] at h
          cases hrec : scanEntries cfg path depth rest with
          | error e' => rw [hrec] at h; simp [Except.map] at h
          | ok r2 =>
            rw [hrec] at h
            simp only [Except.map] at h
            cases h
            exact (ih (sizeOf rest) hrest).2 rest path depth le_rfl hdep r2 hrec p hp
        · rw [if_neg hig] at h
          cases child with
          | dir readable entries =>
            replace h : (scanDirectory cfg (path ++ [name]) (depth + 1)
                (FSNode.dir readable entries)).bind (fun sub =>
                  (scanEntries cfg path depth rest).map (fun r =>
                    ⟨sub.files ++ r.files, sub.skipped ++ r.skipped⟩)) = Except.ok r := h
            cases hrec : scanDirectory cfg (path ++ [name]) (depth + 1)
                (FSNode.dir readable entries) with
            | error e' => rw [hrec] at h; simp [Except.bind] at h
            | ok sub =>
              rw [hrec] at h
              simp only [Except.bind] at h
              cases hrec2 : scanEntries cfg path depth rest with
              | error e' => rw [hrec2] at h; simp [Except.map] at h
              | ok r2 =>
                rw [hrec2] at h
                simp only [Except.map] at h
                cases h
                rcases List.mem_append.mp hp with hp | hp
                · have := (ih (sizeOf (FSNode.dir readable entries)) hchild).1
                    (FSNode.dir readable entries)
                    (path ++ [name]) (depth + 1) le_rfl sub hrec p hp
                  simp only [List.length_append, List.length_cons, List.length_nil] at this
                  omega
                · exact (ih (sizeOf rest) hrest).2 rest path depth le_rfl hdep r2 hrec2 p hp
          | file readable size binary =>
            cases readable with
            | false => exact absurd h (by simp)
            | true =>
              replace h : (scanEntries cfg path depth rest).map (fun r =>
                  if isAllowedPure cfg name size binary then
                    ⟨(path ++ [name]) :: r.files, r.skipped⟩
                  else
                    ⟨r.files, (path ++ [name], "Not allowed (size or binary)") :: r.skipped⟩) =
                  Except.ok r := h
              cases hrec2 : scanEntries cfg path depth rest with
              | error e' => rw [hrec2] at h; simp [Except.map] at h
              | ok r2 =>
                rw [hrec2] at h
                simp only [Except.map] at h
                by_cases hall : isAllowedPure cfg name size binary = true
                · rw [if_pos hall] at h
                  cases h
                  rcases List.mem_cons.mp hp with hp | hp
                  · subst hp
                    simp only [List.length_append, List.length_cons, List.length_nil]
                    omega
                  · exact (ih (sizeOf rest) hrest).2 rest path depth le_rfl hdep r2 hrec2 p hp
                · rw [if_neg hall] at h
                  cases h
                  exact (ih (sizeOf rest) hrest).2 rest path depth le_rfl hdep r2 hrec2 p hp

theorem scanEntries_append (cfg : ScanConfig) (path : List String) (depth : Nat)
    (l1 l2 : List (String × FSNode)) :
    scanEntries cfg path depth (l1 ++ l2) =
      (scanEntries cfg path depth l1).bind (fun r1 =>
        (scanEntries cfg path depth l2).map (fun r2 =>
          ⟨r1.files ++ r2.files, r1.skipped ++ r2.skipped⟩)) := by
  induction l1 with
  | nil =>
    rw [List.nil_append, scanEntries_nil]
    cases h2 : scanEntries cfg path depth l2 <;> simp [Except.bind, Except.map]
  | cons e rest ih =>
    obtain ⟨name, child⟩ := e
    rw [List.cons_append, scanEntries_cons, scanEntries_cons]
    simp only [ih]
    by_cases hig : cfg.ignore (path ++ [name]) = true
    · simp only [if_pos hig]
      cases h1 : scanEntries cfg path depth rest <;>
        cases h2 : scanEntries cfg path depth l2 <;>
          simp [Except.bind, Except.map]
    · simp only [if_neg hig]
      cases child with
      | dir readable entries =>
        cases hsub : scanDirectory cfg (path ++ [name]) (depth + 1)
            (FSNode.dir readable entries) <;>
          cases h1 : scanEntries cfg path depth rest <;>
            cases h2 : scanEntries cfg path depth l2 <;>
              simp [Except.bind, Except.map, List.append_assoc]
      | file readable size binary =>
        cases readable with
        | false => simp [Except.bind]
        | true =>
          by_cases hall : isAllowedPure cfg name size binary = true <;>
            cases h1 : scanEntries cfg path depth rest <;>
              cases h2 : scanEntries cfg path depth l2 <;>
                simp [Except.bind, Except.map, hall]

/-- C4: no selected file's relative path has more than maxDepth + 1 segments
(root files have one segment at depth 0); a call with depth beyond the bound
returns an empty result for any node — even an unreadable one, showing its
entries are never inspected — while a readable directory at exactly the
maximum depth still has its entries processed. -/
theorem c4_depth_bound (cfg : ScanConfig) (root : FSNode) (r : ScanResult)
    (h : scanDirectory cfg [] 0 root = .ok r) :
    (∀ p ∈ r.files, p.length ≤ cfg.maxDepth + 1) ∧
    (∀ (path : List String) (depth : Nat) (node : FSNode), cfg.maxDepth < depth →
      scanDirectory cfg path depth node = .ok ⟨[], []⟩) ∧
    (∀ (path : List String) (entries : List (String × FSNode)),
      scanDirectory cfg path cfg.maxDepth (.dir true entries) =
        scanEntries cfg path cfg.maxDepth entries) := by
  refine ⟨?_, ?_, ?_⟩
  · intro p hp
    have hb := (scan_bound_aux cfg (sizeOf root)).1 root [] 0 le_rfl r h p hp
    simpa using hb
  · intro path depth node hd
    rw [scanDirectory_unfold, if_pos hd]
  · intro path entries
    rw [scanDirectory_unfold, if_neg (by omega)]
    rfl

/-- Witness for C4: with max depth 1, the file nested two levels down is cut
off (the depth-2 subtree returns empty without being read), files at depths 0
and 1 are selected, and each selected path has at most 2 segments. -/
theorem c4_depth_bound_witness :
    scanDirectory ⟨1, 100, [], fun _ => false⟩ [] 0
      (.dir true [("a", .file true 10 false),
        ("d1", .dir true [("b", .file true 10 false),
          ("d2", .dir true [("c", .file true 10 false)])])]) =
      .ok ⟨[["a"], ["d1", "b"]], []⟩ ∧
    (["d1", "b"] : List String).length ≤ 1 + 1 := by
  have h : scanDirectory ⟨1, 100, [], fun _ => false⟩ [] 0
      (.dir true [("a", .file true 10 false),
        ("d1", .dir true [("b", .file true 10 false),
          ("d2", .dir true [("c", .file true 10 false)])])]) =
      .ok ⟨[["a"], ["d1", "b"]], []⟩ := by
    simp [scanDirectory, scanEntries, isAllowedPure, extnameSlice1, Except.map, Except.bind]
  refine ⟨h, ?_⟩
  exact (c4_depth_bound _ _ _ h).1 ["d1", "b"] (by simp)

/-- C2: when the scan succeeds, the final file list is exactly the first
maxFiles entries of the complete walk-order list (so it never exceeds
maxFiles), the walk itself is oblivious to maxFiles (truncation happens after
it completes), and every file beyond the cut is appended to the skip records
with the exceeded-max-files reason — one record per excess file. -/
theorem c2_max_files_truncation (cfg : ScanConfig) (maxFiles : Nat) (root : FSNode)
    (files : List (List String)) (skipped : List (List String × String))
    (h : mainScan cfg maxFiles root = .ok (files, skipped)) :
    files.length ≤ maxFiles ∧
    ∃ r, scanDirectory cfg [] 0 root = .ok r ∧
      files = r.files.take maxFiles ∧
      skipped = r.skipped ++
        (r.files.drop maxFiles).map (fun f => (f, "Exceeded max files limit")) ∧
      skipped.length = r.skipped.length + (r.files.length - maxFiles) := by
  rw [mainScan] at h
  cases hscan : scanDirectory cfg [] 0 root with
  | error e => rw [hscan] at h; cases h
  | ok r =>
    rw [hscan] at h
    simp only [Except.ok.injEq, Prod.mk.injEq] at h
    obtain ⟨hfiles, hskip⟩ := h
    subst hfiles
    constructor
    · exact (List.length_take _ _).le.trans (by simp)
    · refine ⟨r, rfl, rfl, ?_, ?_⟩
      · by_cases hlen : r.files.length > maxFiles
        · rw [if_pos hlen] at hskip
          exact hskip.symm
        · rw [if_neg hlen] at hskip
          rw [← hskip]
          have : r.files.drop maxFiles = [] :=
            List.drop_eq_nil_of_le (by omega)
          simp [this]
      · by_cases hlen : r.files.length > maxFiles
        · rw [if_pos hlen] at hskip
          subst hskip
          simp
        · rw [if_neg hlen] at hskip
          subst hskip
          simp
          omega

/-- Witness for C2: five eligible files with maxFiles = 3 select exactly the
first three in walk order and produce two exceeded-max-files skip records. -/
theorem c2_max_files_truncation_witness :
    mainScan ⟨5, 100, [], fun _ => false⟩ 3
      (.dir true [("a", .file true 10 false), ("b", .file true 10 false),
        ("c", .file true 10 false), ("d", .file true 10 false),
        ("e", .file true 10 false)]) =
      .ok ([["a"], ["b"], ["c"]],
        [(["d"], "Exceeded max files limit"), (["e"], "Exceeded max files limit")]) ∧
    ([["a"], ["b"], ["c"]] : List (List String)).length ≤ 3 := by
  have h : mainScan ⟨5, 100, [], fun _ => false⟩ 3
      (.dir true [("a", .file true 10 false), ("b", .file true 10 false),
        ("c", .file true 10 false), ("d", .file true 10 false),
        ("e", .file true 10 false)]) =
      .ok ([["a"], ["b"], ["c"]],
        [(["d"], "Exceeded max files limit"), (["e"], "Exceeded max files limit")]) := by
    simp [mainScan, scanDirectory, scanEntries, isAllowedPure, extnameSlice1,
      Except.map, Except.bind]
  exact ⟨h, (c2_max_files_truncation _ 3 _ _ _ h).1⟩

/-- C3 counterexample: in a tree whose only unreadable entry is the non-root
directory `bad`, the walk does not skip it and continue — the readdir error
propagates and the whole scan fails — although the same tree without `bad`
yields two selected files. -/
theorem c3_counterexample :
    scanDirectory ⟨5, 100, [], fun _ => false⟩ [] 0
      (.dir true [("a", .file true 10 false), ("bad", .dir false []),
        ("b", .file true 10 false)]) = .error () ∧
    scanDirectory ⟨5, 100, [], fun _ => false⟩ [] 0
      (.dir true [("a", .file true 10 false), ("b", .file true 10 false)]) =
      .ok ⟨[["a"], ["b"]], []⟩ := by
  constructor <;>
    simp [scanDirectory, scanEntries, isAllowedPure, extnameSlice1, Except.map, Except.bind]

/-- C3 (amended): an unreadable entry reached by the walk — any non-ignored
unreadable file, or a non-ignored unreadable directory whose recursion is not
cut off by the depth bound — aborts the entire scan with an error instead of
producing a skip record, provided the entries before it scanned cleanly; only
the outermost try/catch of main sees the failure. -/
theorem c3_unreadable_entry_aborts (cfg : ScanConfig) (path : List String) (depth : Nat)
    (pre : List (String × FSNode)) (name : String) (bad : FSNode)
    (rest : List (String × FSNode)) (r : ScanResult)
    (hpre : scanEntries cfg path depth pre = .ok r)
    (hig : cfg.ignore (path ++ [name]) = false)
    (hdep : depth ≤ cfg.maxDepth)
    (hbad : (∃ entries, bad = FSNode.dir false entries ∧ depth + 1 ≤ cfg.maxDepth) ∨
            (∃ size binary, bad = FSNode.file false size binary)) :
    scanDirectory cfg path depth (.dir true (pre ++ (name, bad) :: rest)) = .error () := by
  rw [scanDirectory_unfold, if_neg (by omega)]
  show scanEntries cfg path depth (pre ++ (name, bad) :: rest) = .error ()
  have hhead : scanEntries cfg path depth ((name, bad) :: rest) = .error () := by
    rw [scanEntries_cons, if_neg (by simp [hig])]
    rcases hbad with ⟨entries, hb, hd2⟩ | ⟨size, binary, hb⟩
    · subst hb
      have hsd : scanDirectory cfg (path ++ [name]) (depth + 1) (FSNode.dir false entries) =
          .error () := by
        rw [scanDirectory_unfold, if_neg (by omega)]
        rfl
      show (scanDirectory cfg (path ++ [name]) (depth + 1) (FSNode.dir false entries)).bind _ =
        .error ()
      rw [hsd]
      rfl
    · subst hb
      rfl
  rw [scanEntries_append, hpre, hhead]
  rfl

/-- Witness for C3's amended statement: a clean first entry, then an
unreadable directory, aborts the scan. -/
theorem c3_unreadable_entry_aborts_witness :
    scanEntries ⟨5, 100, [], fun _ => false⟩ [] 0 [("a", .file true 10 false)] =
      .ok ⟨[["a"]], []⟩ ∧
    scanDirectory ⟨5, 100, [], fun _ => false⟩ [] 0
      (.dir true ([("a", .file true 10 false)] ++
        ("bad", .dir false []) :: [("b", .file true 10 false)])) = .error () := by
  have hpre : scanEntries ⟨5, 100, [], fun _ => false⟩ [] 0 [("a", .file true 10 false)] =
      .ok ⟨[["a"]], []⟩ := by
    simp [scanEntries, isAllowedPure, extnameSlice1, Except.map]
  refine ⟨hpre, ?_⟩
  exact c3_unreadable_entry_aborts _ [] 0 _ "bad" _ _ _ hpre rfl (Nat.zero_le _)
    (Or.inl ⟨[], rfl, by decide⟩)

theorem trimAfterLastNl_length_pos (l : List Char) (h : 0 < l.count '\n') :
    0 < (trimAfterLastNl l).length := by
  have hmem : '\n' ∈ l := List.count_pos_iff.mp h
  have hmem2 : '\n' ∈ l.reverse := List.mem_reverse.mpr hmem
  have hne : l.reverse.dropWhile (fun c => c != '\n') ≠ [] := by
    intro hnil
    have := List.dropWhile_eq_nil_iff.mp hnil '\n' hmem2
    simp at this
  simp only [trimAfterLastNl, List.length_reverse]
  exact List.length_pos.mpr hne

theorem dropWhile_head_false (p : Char → Bool) : ∀ (l : List Char) (x : Char) (xs : List Char),
    l.dropWhile p = x :: xs → p x = false := by
  intro l
  induction l with
  | nil => intro x xs h; simp at h
  | cons a t ih =>
    intro x xs h
    rw [List.dropWhile_cons] at h
    by_cases hp : p a = true
    · rw [if_pos hp] at h
      exact ih x xs h
    · rw [if_neg hp] at h
      cases h
      simpa using hp

theorem collapseAux_cons_nomatch (c : Char) (cs : List Char)
    (h : ¬(c = '\n' ∧ 3 ≤ ((c :: cs).takeWhile jsWhitespace).count '\n')) :
    collapseAux (c :: cs) = c :: collapseAux cs := by
  rw [collapseAux]
  rw [dif_neg h]

theorem collapseAux_cons_match (c : Char) (cs : List Char)
    (h : c = '\n' ∧ 3 ≤ ((c :: cs).takeWhile jsWhitespace).count '\n') :
    collapseAux (c :: cs) = '\n' :: '\n' ::
      collapseAux ((c :: cs).drop
        (trimAfterLastNl ((c :: cs).takeWhile jsWhitespace)).length) := by
  rw [collapseAux]
  rw [dif_pos h]

theorem collapseAux_nil : collapseAux [] = [] := by
  rw [collapseAux]

theorem collapse_head (cs : List Char) (h : cs.head? ≠ some '\n') :
    (collapseAux cs).head? = cs.head? := by
  cases cs with
  | nil => rw [collapseAux_nil]
  | cons c t =>
    have hc : ¬ c = '\n' := by
      intro hh
      exact h (by rw [hh]; rfl)
    rw [collapseAux_cons_nomatch c t (by tauto)]
    rfl

theorem takeWhile_nl_cons (xs : List Char) :
    (('\n' :: xs).takeWhile jsWhitespace) = '\n' :: xs.takeWhile jsWhitespace := by
  rw [List.takeWhile_cons, if_pos (by decide)]

theorem leadNl_zero_of_head (cs : List Char) (h : cs.head? ≠ some '\n') : leadNl cs = 0 := by
  cases cs with
  | nil => rfl
  | cons c t =>
    have hc : ¬ c = '\n' := by
      intro hh
      exact h (by rw [hh]; rfl)
    simp only [leadNl, List.takeWhile_cons]
    rw [if_neg (by simpa using hc)]
    rfl

theorem leadNl_collapse_zero (cs : List Char)
    (h : ((cs.takeWhile jsWhitespace).count '\n') = 0) : leadNl (collapseAux cs) = 0 := by
  have hh : cs.head? ≠ some '\n' := by
    cases cs with
    | nil => simp
    | cons c t =>
      intro hsome
      have hc : c = '\n' := by simpa using hsome
      subst hc
      rw [takeWhile_nl_cons] at h
      simp at h
  rw [leadNl_zero_of_head _ (by rw [collapse_head cs hh]; exact hh)]

theorem leadNl_collapse_le_one (cs : List Char)
    (h : ((cs.takeWhile jsWhitespace).count '\n') ≤ 1) : leadNl (collapseAux cs) ≤ 1 := by
  cases cs with
  | nil => simp [collapseAux, leadNl]
  | cons c t =>
    by_cases hc : c = '\n'
    · subst hc
      rw [takeWhile_nl_cons] at h
      simp only [List.count_cons_self] at h
      have ht : (t.takeWhile jsWhitespace).count '\n' = 0 := by omega
      rw [collapseAux_cons_nomatch _ _ (by
        rw [takeWhile_nl_cons]
        simp only [List.count_cons_self]
        omega)]
      simp only [leadNl, List.takeWhile_cons, if_pos (by decide : ('\n' == '\n') = true)]
      have := leadNl_collapse_zero t ht
      simp only [leadNl] at this
      simp [this]
    · have hh : (c :: t).head? ≠ some '\n' := by
        intro hsome
        exact hc (by simpa using hsome)
      rw [leadNl_zero_of_head _ (by rw [collapse_head _ hh]; exact hh)]
      omega

theorem noTripleNl_cons_ne (a : Char) (l : List Char) (ha : ¬ a = '\n')
    (h : noTripleNl l = true) : noTripleNl (a :: l) = true := by
  match l with
  | [] => rfl
  | [x] => rfl
  | x :: y :: rest =>
    rw [noTripleNl]
    rw [if_neg (by tauto)]
    exact h

theorem noTripleNl_cons_nl (l : List Char) (h : noTripleNl l = true)
    (hl : leadNl l ≤ 1) : noTripleNl ('\n' :: l) = true := by
  match l with
  | [] => rfl
  | [x] => rfl
  | x :: y :: rest =>
    rw [noTripleNl]
    rw [if_neg ?_]
    · exact h
    · rintro ⟨-, hx, hy⟩
      subst hx
      subst hy
      simp only [leadNl, List.takeWhile_cons, if_pos (by decide : ('\n' == '\n') = true)] at hl
      simp at hl

theorem matchRest_head (l : List Char) :
    (l.drop (trimAfterLastNl (l.takeWhile jsWhitespace)).length).head? ≠ some '\n' := by
  set run := l.takeWhile jsWhitespace with hrundef
  set tailPart := (run.reverse.takeWhile (fun c => c != '\n')).reverse with htaildef
  have hrun : run = trimAfterLastNl run ++ tailPart := by
    conv_lhs => rw [← List.reverse_reverse run,
      ← List.takeWhile_append_dropWhile (p := fun c => c != '\n') (l := run.reverse)]
    rw [List.reverse_append]
    rfl
  have htailmem : ∀ x ∈ tailPart, ¬ x = '\n' := by
    intro x hx
    have hx2 : x ∈ run.reverse.takeWhile (fun c => c != '\n') := by
      rw [htaildef] at hx
      exact List.mem_reverse.mp hx
    have := List.mem_takeWhile_imp hx2
    simpa using this
  have hsplit : l = run ++ l.dropWhile jsWhitespace := by
    rw [hrundef]
    exact (List.takeWhile_append_dropWhile _ _).symm
  have hl2 : l = trimAfterLastNl run ++ (tailPart ++ l.dropWhile jsWhitespace) := by
    calc l = run ++ l.dropWhile jsWhitespace := hsplit
    _ = (trimAfterLastNl run ++ tailPart) ++ l.dropWhile jsWhitespace := by rw [← hrun]
    _ = trimAfterLastNl run ++ (tailPart ++ l.dropWhile jsWhitespace) := List.append_assoc _ _ _
  have hdrop : l.drop (trimAfterLastNl run).length = tailPart ++ l.dropWhile jsWhitespace := by
    conv_lhs => rw [hl2]
    exact List.drop_left _ _
  rw [hdrop]
  cases htp : tailPart with
  | cons a rest =>
    have : ¬ a = '\n' := htailmem a (by rw [htp]; exact List.mem_cons_self a rest)
    simp only [List.cons_append, List.head?_cons]
    intro hsome
    exact this (by simpa using hsome)
  | nil =>
    simp only [List.nil_append]
    cases hdw : l.dropWhile jsWhitespace with
    | nil => simp
    | cons s ss =>
      have hs := dropWhile_head_false jsWhitespace l s ss hdw
      simp only [List.head?_cons]
      intro hsome
      have : s = '\n' := by simpa using hsome
      subst this
      simp [jsWhitespace] at hs

theorem leadNl_cons_nl (l : List Char) : leadNl ('\n' :: l) = 1 + leadNl l := by
  simp only [leadNl, List.takeWhile_cons, if_pos (by decide : (('\n' : Char) == '\n') = true),
    List.length_cons]
  omega

theorem collapse_noTriple : ∀ (n : Nat) (cs : List Char), cs.length ≤ n →
    noTripleNl (collapseAux cs) = true := by
  intro n
  induction n using Nat.strong_induction_on with
  | _ n ih =>
    intro cs hlen
    match cs with
    | [] => rw [collapseAux_nil]; rfl
    | c :: cs' =>
      by_cases hm : c = '\n' ∧ 3 ≤ ((c :: cs').takeWhile jsWhitespace).count '\n'
      · rw [collapseAux_cons_match c cs' hm]
        have hrh : ((c :: cs').drop
            (trimAfterLastNl ((c :: cs').takeWhile jsWhitespace)).length).head? ≠ some '\n' :=
          matchRest_head (c :: cs')
        have hlt : ((c :: cs').drop
            (trimAfterLastNl ((c :: cs').takeWhile jsWhitespace)).length).length <
            (c :: cs').length := by
          have hpos : 0 < (trimAfterLastNl ((c :: cs').takeWhile jsWhitespace)).length :=
            trimAfterLastNl_length_pos _ (by omega)
          simp only [List.length_drop, List.length_cons]
          omega
        have hlen2 : (c :: cs').length ≤ n := hlen
        have hnt : noTripleNl (collapseAux ((c :: cs').drop
            (trimAfterLastNl ((c :: cs').takeWhile jsWhitespace)).length)) = true := by
          refine ih _ ?_ _ le_rfl
          simp only [List.length_cons] at hlen2
          omega
        have hlead0 : leadNl (collapseAux ((c :: cs').drop
            (trimAfterLastNl ((c :: cs').takeWhile jsWhitespace)).length)) = 0 :=
          leadNl_zero_of_head _ (by rw [collapse_head _ hrh]; exact hrh)
        apply noTripleNl_cons_nl
        · exact noTripleNl_cons_nl _ hnt (by omega)
        · rw [leadNl_cons_nl, hlead0]
      · rw [collapseAux_cons_nomatch c cs' hm]
        have hnt : noTripleNl (collapseAux cs') = true := by
          refine ih cs'.length ?_ cs' le_rfl
          simp only [List.length_cons] at hlen
          omega
        by_cases hc : c = '\n'
        · subst hc
          apply noTripleNl_cons_nl _ hnt
          apply leadNl_collapse_le_one
          have hcnt : ¬ 3 ≤ (('\n' :: cs').takeWhile jsWhitespace).count '\n' := by tauto
          rw [takeWhile_nl_cons] at hcnt
          simp only [List.count_cons_self] at hcnt
          omega
        · exact noTripleNl_cons_ne c _ hc hnt

theorem noTriple_listSub : ∀ l : List Char, noTripleNl l = true →
    listSub ['\n', '\n', '\n'] l = false := by
  intro l
  induction l using noTripleNl.induct with
  | case1 => intro h; rfl
  | case2 x => intro h; simp [listSub, List.isPrefixOf]
  | case3 x y => intro h; simp [listSub, List.isPrefixOf]
  | case4 a b c rest hcond =>
    intro h
    rw [noTripleNl] at h
    rw [if_pos hcond] at h
    cases h
  | case5 a b c rest hcond ih =>
    intro h
    rw [noTripleNl] at h
    rw [if_neg hcond] at h
    rw [listSub]
    have hpre : (['\n', '\n', '\n'] : List Char).isPrefixOf (a :: b :: c :: rest) = false := by
      by_contra hcc
      simp only [Bool.not_eq_false] at hcc
      simp only [List.isPrefixOf, List.isPrefixOf_cons₂, Bool.and_eq_true, beq_iff_eq] at hcc
      obtain ⟨h1, h2, h3, -⟩ := hcc
      exact hcond ⟨h1.symm, h2.symm, h3.symm⟩
    rw [hpre, ih h]
    rfl

theorem takeWhile_replicate_nl (m : Nat) :
    (List.replicate m '\n').takeWhile jsWhitespace = List.replicate m '\n' := by
  induction m with
  | zero => rfl
  | succ m ihm =>
    rw [List.replicate_succ, List.takeWhile_cons, if_pos (by decide)]
    rw [ihm]

theorem trimAfterLastNl_replicate (m : Nat) :
    trimAfterLastNl (List.replicate m '\n') = List.replicate m '\n' := by
  unfold trimAfterLastNl
  rw [List.reverse_replicate]
  cases m with
  | zero => rfl
  | succ j =>
    rw [List.replicate_succ, List.dropWhile_cons, if_neg (by decide)]
    rw [← List.replicate_succ, List.reverse_replicate]

theorem collapse_replicate (k : Nat) (hk : 3 ≤ k) :
    removeExcessLineBreaks ⟨List.replicate k '\n'⟩ = "\n\n" := by
  obtain ⟨m, rfl⟩ : ∃ m, k = m + 3 := ⟨k - 3, by omega⟩
  have hdata : collapseAux (List.replicate (m + 3) '\n') = ['\n', '\n'] := by
    have hrepl : List.replicate (m + 3) '\n' = '\n' :: List.replicate (m + 2) '\n' :=
      List.replicate_succ '\n' (m + 2)
    conv_lhs => rw [hrepl]
    rw [collapseAux_cons_match _ _ ?_]
    · rw [← hrepl, takeWhile_replicate_nl, trimAfterLastNl_replicate]
      rw [List.length_replicate]
      rw [List.drop_replicate]
      simp only [Nat.sub_self, List.replicate_zero]
      rw [collapseAux_nil]
    · refine ⟨rfl, ?_⟩
      rw [← hrepl, takeWhile_replicate_nl, List.count_replicate_self]
      omega
  show (⟨collapseAux (List.replicate (m + 3) '\n')⟩ : String) = "\n\n"
  rw [hdata]

/-! ## Claim C9 -/
/-- C9: after `removeExcessLineBreaks`, the output never contains three
consecutive newline characters anywhere, and a pure run of `k ≥ 3` newlines
collapses to exactly two. -/
theorem c9_no_triple_newline (s : String) (k : Nat) (hk : 3 ≤ k) :
    listSub ['\n', '\n', '\n'] (removeExcessLineBreaks s).data = false ∧
    removeExcessLineBreaks ⟨List.replicate k '\n'⟩ = "\n\n" := by
  refine ⟨?_, collapse_replicate k hk⟩
  exact noTriple_listSub _ (collapse_noTriple s.data.length s.data le_rfl)

/-- Witness for C9 at concrete inputs. -/
theorem c9_no_triple_newline_witness :
    (3 ≤ 3) ∧
    listSub ['\n', '\n', '\n'] (removeExcessLineBreaks "a\n\n\n\nb").data = false ∧
    removeExcessLineBreaks ⟨List.replicate 3 '\n'⟩ = "\n\n" :=
  ⟨by omega, (c9_no_triple_newline "a\n\n\n\nb" 3 (by omega)).1,
    (c9_no_triple_newline "x" 3 (by omega)).2⟩

theorem joinLines_nil : joinLines [] = "" := rfl

theorem joinLines_cons (l : String) (ls : List String) :
    joinLines (l :: ls) = l ++ "\n" ++ joinLines ls := rfl

theorem joinLines_append (l1 l2 : List String) :
    joinLines (l1 ++ l2) = joinLines l1 ++ joinLines l2 := by
  induction l1 with
  | nil => simp [joinLines_nil]
  | cons a t ih =>
    rw [List.cons_append, joinLines_cons, joinLines_cons, ih]
    simp [String.append_assoc]

theorem renderList_eq_joinLines (pre : String) (es : List (String × JsVal)) :
    renderList pre es = joinLines (linesListL pre es) := by
  induction pre, es using renderList.induct with
  | case1 pre => rw [renderList, linesListL]; rfl
  | case2 pre k v ih =>
    rw [renderList, linesListL, joinLines_cons, ih]
  | case3 pre k v e es ih1 ih2 =>
    rw [renderList, linesListL, joinLines_cons, joinLines_append, ih1, ih2]
    simp [String.append_assoc]

theorem linesListL_length (pre : String) (es : List (String × JsVal)) :
    (linesListL pre es).length = nodeCount es := by
  induction pre, es using linesListL.induct with
  | case1 pre => rw [linesListL, nodeCount]; rfl
  | case2 pre k v ih =>
    rw [linesListL, nodeCount, nodeCount]
    simp only [List.length_cons, ih]
    omega
  | case3 pre k v e es ih1 ih2 =>
    rw [linesListL, nodeCount]
    simp only [List.length_cons, List.length_append, ih1, ih2]
    omega

theorem connectorSpec_linesListL (pre : String) (es : List (String × JsVal)) :
    ConnectorSpec pre es (linesListL pre es) := by
  induction pre, es using linesListL.induct with
  | case1 pre => rw [linesListL]; exact ConnectorSpec.nil pre
  | case2 pre k v ih =>
    rw [linesListL]
    exact ConnectorSpec.single pre k v _ ih
  | case3 pre k v e es ih1 ih2 =>
    rw [linesListL]
    exact ConnectorSpec.grouped pre k v e es _ _ ih1 ih2

theorem getEntry_setEntry_self (es : List (String × JsVal)) (k : String) (v : JsVal) :
    getEntry (setEntry es k v) k = some v := by
  induction es with
  | nil => simp [getEntry, setEntry]
  | cons e t ih =>
    obtain ⟨k1, v1⟩ := e
    by_cases hk : k1 = k
    · simp [getEntry, setEntry, hk]
    · simp [getEntry, setEntry, hk, ih]

theorem getEntry_setEntry_ne (es : List (String × JsVal)) (k k2 : String) (v : JsVal)
    (hne : k2 ≠ k) : getEntry (setEntry es k v) k2 = getEntry es k2 := by
  induction es with
  | nil =>
    simp only [setEntry, getEntry]
    rw [if_neg (fun h => hne h.symm)]
  | cons e t ih =>
    obtain ⟨k1, v1⟩ := e
    by_cases hk : k1 = k
    · subst hk
      rw [setEntry, if_pos rfl, getEntry, getEntry, if_neg (fun h => hne h.symm),
        if_neg (fun h => hne h.symm)]
    · rw [setEntry, if_neg hk, getEntry, getEntry]
      by_cases hk2 : k1 = k2
      · rw [if_pos hk2, if_pos hk2]
      · rw [if_neg hk2, if_neg hk2, ih]

theorem prefixAppend_iff : ∀ (a b : List String),
    a.isPrefixOf b = true ↔ ∃ t, b = a ++ t := by
  intro a
  induction a with
  | nil => intro b; simp [List.isPrefixOf]
  | cons x xs ih =>
    intro b
    cases b with
    | nil => simp [List.isPrefixOf]
    | cons y ys =>
      simp only [List.isPrefixOf, Bool.and_eq_true_iff, beq_iff_eq, ih]
      constructor
      · rintro ⟨rfl, t, rfl⟩
        exact ⟨t, rfl⟩
      · rintro ⟨t, ht⟩
        simp only [List.cons_append, List.cons.injEq] at ht
        exact ⟨ht.1.symm, t, ht.2⟩

theorem properSegPre_iff (a b : List String) :
    properSegPre a b = true ↔ ∃ t, t ≠ [] ∧ b = a ++ t := by
  simp only [properSegPre, Bool.and_eq_true_iff, bne_iff_ne, prefixAppend_iff]
  constructor
  · rintro ⟨⟨t, rfl⟩, hne⟩
    refine ⟨t, ?_, rfl⟩
    intro hnil
    subst hnil
    simp at hne
  · rintro ⟨t, htne, rfl⟩
    refine ⟨⟨t, rfl⟩, ?_⟩
    intro hself
    exact htne (by simpa using hself.symm)

theorem properSegPre_cons_same (s : String) (a b : List String) :
    properSegPre (s :: a) (s :: b) = properSegPre a b := by
  by_cases h : properSegPre a b = true
  · rw [h]
    rw [properSegPre_iff] at h ⊢
    obtain ⟨t, htne, rfl⟩ := h
    exact ⟨t, htne, rfl⟩
  · rw [Bool.not_eq_true] at h
    rw [h]
    rw [← Bool.not_eq_true] at h ⊢
    intro hcc
    apply h
    rw [properSegPre_iff] at hcc ⊢
    obtain ⟨t, htne, hct⟩ := hcc
    simp only [List.cons_append, List.cons.injEq, true_and] at hct
    exact ⟨t, htne, hct⟩

theorem isLeafChain_cons_congr (es1 es2 : List (String × JsVal)) (a : String)
    (p' : List String) (hg : getEntry es1 a = getEntry es2 a) :
    isLeafChain es1 (a :: p') = isLeafChain es2 (a :: p') := by
  cases p' with
  | nil => rw [isLeafChain, isLeafChain, hg]
  | cons x xs => rw [isLeafChain, isLeafChain, hg]

theorem insert_leafChain : ∀ (q : List String) (es : List (String × JsVal)), q ≠ [] →
    hasObjAt es q = false → isLeafChain (insertSegs q es) q = true := by
  intro q
  induction q with
  | nil => intro es h; exact absurd rfl h
  | cons s rest ih =>
    intro es hne hobj
    cases rest with
    | nil =>
      rw [insertSegs]
      rw [hasObjAt] at hobj
      cases hget : getEntry es s with
      | none =>
        show isLeafChain (setEntry es s JsVal.nullv) [s] = true
        rw [isLeafChain, getEntry_setEntry_self]
      | some v =>
        cases v with
        | nullv =>
          show isLeafChain (setEntry es s JsVal.nullv) [s] = true
          rw [isLeafChain, getEntry_setEntry_self]
        | obj cs =>
          rw [hget] at hobj
          simp at hobj
          rw [show hasObjAt cs ([] : List String) = true from rfl] at hobj
          cases hobj
    | cons s2 rest2 =>
      rw [insertSegs, isLeafChain, getEntry_setEntry_self]
      apply ih _ (by simp)
      rw [hasObjAt] at hobj
      cases hget : getEntry es s with
      | none => rw [hasObjAt.eq_def]; cases rest2 <;> simp [getEntry]
      | some v =>
        cases v with
        | nullv => rw [hasObjAt.eq_def]; cases rest2 <;> simp [getEntry]
        | obj cs => rw [hget] at hobj; exact hobj

theorem insert_hasObjAt : ∀ (q : List String) (es : List (String × JsVal)) (pi : List String),
    hasObjAt (insertSegs q es) pi = true →
    hasObjAt es pi = true ∨ properSegPre pi q = true := by
  intro q
  induction q with
  | nil => intro es pi h; rw [insertSegs] at h; exact Or.inl h
  | cons s rest ih =>
    intro es pi h
    cases pi with
    | nil => exact Or.inl rfl
    | cons a pi' =>
      cases rest with
      | nil =>
        rw [insertSegs] at h
        cases hget : getEntry es s with
        | none =>
          rw [hget] at h
          by_cases ha : a = s
          · subst ha
            rw [hasObjAt, getEntry_setEntry_self] at h
            cases h
          · rw [hasObjAt, getEntry_setEntry_ne _ _ _ _ ha] at h
            rw [hasObjAt]
            exact Or.inl h
        | some v =>
          cases v with
          | nullv =>
            rw [hget] at h
            by_cases ha : a = s
            · subst ha
              rw [hasObjAt, getEntry_setEntry_self] at h
              cases h
            · rw [hasObjAt, getEntry_setEntry_ne _ _ _ _ ha] at h
              rw [hasObjAt]
              exact Or.inl h
          | obj cs =>
            rw [hget] at h
            exact Or.inl h
      | cons s2 rest2 =>
        rw [insertSegs] at h
        by_cases ha : a = s
        · subst ha
          rw [hasObjAt, getEntry_setEntry_self] at h
          replace h : hasObjAt (insertSegs (s2 :: rest2)
              (match getEntry es a with
               | some (.obj cs) => cs
               | _ => [])) pi' = true := h
          cases pi' with
          | nil =>
            right
            rw [properSegPre_iff]
            exact ⟨s2 :: rest2, by simp, rfl⟩
          | cons x xs =>
            rcases ih _ (x :: xs) h with hsub | hsub
            · cases hget : getEntry es a with
              | none =>
                rw [hget] at hsub
                simp [hasObjAt, getEntry] at hsub
              | some v =>
                cases v with
                | nullv =>
                  rw [hget] at hsub
                  simp [hasObjAt, getEntry] at hsub
                | obj cs =>
                  rw [hget] at hsub
                  left
                  rw [hasObjAt, hget]
                  exact hsub
            · right
              rw [properSegPre_cons_same]
              exact hsub
        · rw [hasObjAt, getEntry_setEntry_ne _ _ _ _ ha] at h
          rw [hasObjAt]
          exact Or.inl h

theorem insert_preserves_leafChain : ∀ (q : List String) (es : List (String × JsVal))
    (p : List String), isLeafChain es p = true → p ≠ q →
    properSegPre p q = false → properSegPre q p = false →
    isLeafChain (insertSegs q es) p = true := by
  intro q
  induction q with
  | nil =>
    intro es p h hpq hpre1 hpre2
    rw [insertSegs]
    exact h
  | cons s rest ih =>
    intro es p h hpq hpre1 hpre2
    cases p with
    | nil => rw [isLeafChain] at h; cases h
    | cons a p' =>
      cases rest with
      | nil =>
        rw [insertSegs]
        cases hget : getEntry es s with
        | none =>
          show isLeafChain (setEntry es s JsVal.nullv) (a :: p') = true
          by_cases ha : a = s
          · subst ha
            cases p' with
            | nil => exact absurd rfl hpq
            | cons x xs =>
              rw [isLeafChain, hget] at h
              simp at h
          · rw [isLeafChain_cons_congr _ es a p' (getEntry_setEntry_ne es s a _ ha)]
            exact h
        | some v =>
          cases v with
          | nullv =>
            show isLeafChain (setEntry es s JsVal.nullv) (a :: p') = true
            by_cases ha : a = s
            · subst ha
              cases p' with
              | nil => exact absurd rfl hpq
              | cons x xs =>
                rw [isLeafChain, hget] at h
                simp at h
            · rw [isLeafChain_cons_congr _ es a p' (getEntry_setEntry_ne es s a _ ha)]
              exact h
          | obj cs => exact h
      | cons s2 rest2 =>
        rw [insertSegs]
        by_cases ha : a = s
        · subst ha
          cases p' with
          | nil =>
            exfalso
            have hprop : properSegPre [a] (a :: s2 :: rest2) = true := by
              rw [properSegPre_iff]
              exact ⟨s2 :: rest2, by simp, rfl⟩
            simp [hpre1] at hprop
          | cons x xs =>
            cases hget : getEntry es a with
            | none =>
              rw [isLeafChain, hget] at h
              simp at h
            | some v =>
              cases v with
              | nullv =>
                rw [isLeafChain, hget] at h
                simp at h
              | obj cs =>
                rw [isLeafChain, hget] at h
                replace h : isLeafChain cs (x :: xs) = true := h
                rw [isLeafChain, getEntry_setEntry_self]
                show isLeafChain (insertSegs (s2 :: rest2) cs) (x :: xs) = true
                refine ih cs (x :: xs) h ?_ ?_ ?_
                · intro heq
                  exact hpq (by rw [heq])
                · rw [← properSegPre_cons_same a]
                  exact hpre1
                · rw [← properSegPre_cons_same a]
                  exact hpre2
        · rw [isLeafChain_cons_congr _ es a p' (getEntry_setEntry_ne es s a _ ha)]
          exact h

theorem hasObjAt_fold : ∀ (A : List String) (acc : List (String × JsVal)) (pi : List String),
    pi ≠ [] →
    hasObjAt (A.foldl (fun t p => insertSegs (segsOf p) t) acc) pi = true →
    hasObjAt acc pi = true ∨ ∃ a ∈ A, properSegPre pi (segsOf a) = true := by
  intro A
  induction A with
  | nil =>
    intro acc pi hne h
    simp only [List.foldl_nil] at h
    exact Or.inl h
  | cons a A2 ihA =>
    intro acc pi hne h
    rw [List.foldl_cons] at h
    rcases ihA _ pi hne h with h2 | ⟨b, hb, hp⟩
    · rcases insert_hasObjAt (segsOf a) acc pi h2 with h3 | h3
      · exact Or.inl h3
      · exact Or.inr ⟨a, by simp, h3⟩
    · exact Or.inr ⟨b, by simp [hb], hp⟩

theorem leafChain_fold : ∀ (B : List String) (acc : List (String × JsVal)) (p : List String),
    isLeafChain acc p = true →
    (∀ b ∈ B, p ≠ segsOf b ∧ properSegPre p (segsOf b) = false ∧
      properSegPre (segsOf b) p = false) →
    isLeafChain (B.foldl (fun t q => insertSegs (segsOf q) t) acc) p = true := by
  intro B
  induction B with
  | nil =>
    intro acc p h _
    simpa using h
  | cons b B2 ihB =>
    intro acc p h hcond
    rw [List.foldl_cons]
    apply ihB
    · obtain ⟨h1, h2, h3⟩ := hcond b (by simp)
      exact insert_preserves_leafChain (segsOf b) acc p h h1 h2 h3
    · intro c hc
      exact hcond c (by simp [hc])

theorem splitSlashChars_ne_nil (cs : List Char) : splitSlashChars cs ≠ [] := by
  cases cs with
  | nil => simp [splitSlashChars]
  | cons c t =>
    simp only [splitSlashChars]
    split
    · simp
    · split <;> simp

theorem segsOf_ne_nil (p : String) : segsOf p ≠ [] := by
  simp only [segsOf]
  intro h
  exact splitSlashChars_ne_nil p.data (List.map_eq_nil_iff.mp h)

theorem buildTree_chains (paths : List String)
    (hok : List.Pairwise (fun p q => segsOf p ≠ segsOf q ∧
      properSegPre (segsOf p) (segsOf q) = false ∧
      properSegPre (segsOf q) (segsOf p) = false) paths) :
    ∀ p ∈ paths, isLeafChain (buildTreeEntries paths) (segsOf p) = true := by
  intro p hp
  obtain ⟨A, B, rfl⟩ := List.append_of_mem hp
  have hsplit : buildTreeEntries (A ++ p :: B) =
      B.foldl (fun t q => insertSegs (segsOf q) t)
        (insertSegs (segsOf p) (A.foldl (fun t q => insertSegs (segsOf q) t) [])) := by
    simp [buildTreeEntries, List.foldl_append]
  rw [hsplit]
  rw [List.pairwise_append] at hok
  obtain ⟨pwA, pwPB, hcross⟩ := hok
  rw [List.pairwise_cons] at pwPB
  obtain ⟨hB, pwB⟩ := pwPB
  have hnoobj : hasObjAt (A.foldl (fun t q => insertSegs (segsOf q) t) []) (segsOf p)
      = false := by
    by_contra hcc
    rw [Bool.not_eq_false] at hcc
    rcases hasObjAt_fold A [] (segsOf p) (segsOf_ne_nil p) hcc with h0 | ⟨a, ha, hpp⟩
    · cases hsg : segsOf p with
      | nil => exact (segsOf_ne_nil p) hsg
      | cons x xs =>
        rw [hsg] at h0
        rw [hasObjAt] at h0
        simp [getEntry] at h0
    · have hr := hcross a ha p (by simp)
      exact absurd hpp (by simp [hr.2.2])
  apply leafChain_fold
  · exact insert_leafChain (segsOf p) _ (segsOf_ne_nil p) hnoobj
  · intro b hb
    exact hB b hb

/-! ## Claim C8 -/
/-- C8 counterexample: with the input list `["a", "a/b"]` the insertion loop
overwrites the leaf created for `"a"` with a directory node, so the input
path `"a"` has no root-to-leaf chain in the built tree — although `"a"` on
its own would produce one. -/
theorem c8_counterexample :
    hasObjAt (buildTreeEntries ["a", "a/b"]) ["a"] = true ∧
    isLeafChain (buildTreeEntries ["a", "a/b"]) ["a"] = false ∧
    isLeafChain (buildTreeEntries ["a"]) ["a"] = true := by
  refine ⟨by decide, by decide, by decide⟩

/-- C8 (amended): for every list of relative paths that is duplicate-free and
segment-prefix-free, the rendered tree is the newline-terminated
concatenation of one line per tree node, those lines obey the connector
discipline (`└── ` exactly once per sibling group, on the last sibling,
`├── ` on all others, continuation `    ` under the last and `│   `
otherwise), and every input path appears as a root-to-leaf chain of the
built tree. -/
theorem c8_tree_render (paths : List String)
    (hok : List.Pairwise (fun p q => segsOf p ≠ segsOf q ∧
      properSegPre (segsOf p) (segsOf q) = false ∧
      properSegPre (segsOf q) (segsOf p) = false) paths) :
    buildAndPrintTree paths = joinLines (linesListL "" (buildTreeEntries paths)) ∧
    (linesListL "" (buildTreeEntries paths)).length = nodeCount (buildTreeEntries paths) ∧
    ConnectorSpec "" (buildTreeEntries paths) (linesListL "" (buildTreeEntries paths)) ∧
    ∀ p ∈ paths, isLeafChain (buildTreeEntries paths) (segsOf p) = true :=
  ⟨renderList_eq_joinLines "" _, linesListL_length "" _, connectorSpec_linesListL "" _,
    buildTree_chains paths hok⟩

/-- Witness for C8's amended statement at a concrete path list. -/
theorem c8_tree_render_witness :
    List.Pairwise (fun p q => segsOf p ≠ segsOf q ∧
      properSegPre (segsOf p) (segsOf q) = false ∧
      properSegPre (segsOf q) (segsOf p) = false)
      ["src/index.js", "src/config.js", "README.md"] ∧
    isLeafChain (buildTreeEntries ["src/index.js", "src/config.js", "README.md"])
      (segsOf "src/index.js") = true := by
  have hok : List.Pairwise (fun p q => segsOf p ≠ segsOf q ∧
      properSegPre (segsOf p) (segsOf q) = false ∧
      properSegPre (segsOf q) (segsOf p) = false)
      ["src/index.js", "src/config.js", "README.md"] := by decide
  exact ⟨hok,
    (c8_tree_render ["src/index.js", "src/config.js", "README.md"] hok).2.2.2
      "src/index.js" (by simp)⟩
